import Mathlib

/-!
# Verification of the BEST-corpus analysis tool

A shallow embedding of `src/main.rs` of the BEST-corpus analysis program.
The program has two algorithmic components:

* `vectorize` (main.rs lines 42–85): reads JSON corpus files in parallel
  (one rayon task per file, order-preserving `flat_map`/`collect`), maps each
  character to a `u8` code through a shared `RwLock<HashMap<char, u8>>` with a
  shared `RwLock<u8>` counter, and reattaches each word's tag to the last
  character's output pair.
* `get_unique_vecs_idx` (main.rs lines 87–115): materializes all length-`g`
  windows of the code sequence, sorts them, and returns the boundary indices of
  the distinct window values in the sorted array.

Machine integers are modelled as `Nat`; the `u8` counter arithmetic that can
overflow is modelled with an explicit `% 256` (release-build wrapping
semantics).  Characters are modelled by their Unicode scalar value (`Nat`),
which is exactly what the source inspects (`*ch as u32`).  Fallible paths
(Rust panics) are modelled with `Option`.
-/

namespace BestCorpus

/-! ## N-gram counter: `get_unique_vecs_idx` (main.rs lines 87–115) -/

/-- Lexicographic comparison of `Vec<u8>` values — Rust's derived `Ord` for
vectors compares element-wise by position, shorter prefix first. -/
def lexLe : List Nat → List Nat → Bool
  | [], _ => true
  | _ :: _, [] => false
  | a :: as, b :: bs => if a < b then true else if b < a then false else lexLe as bs

/-- `lexLe` as a binary relation, for use with the sorting function. -/
def LexLe (a b : List Nat) : Prop := lexLe a b = true

instance : DecidableRel LexLe := fun a b => by unfold LexLe; infer_instance

/-- The materialized gram windows: the source maps every start offset
`i ∈ 0..(raw.len() - g)` to the window `[raw[i], …, raw[i+g-1]]`
(main.rs lines 89–92).  The subtraction here is `Nat` truncated subtraction;
the `usize` underflow of the source for `g > raw.len()` is modelled in
`get_unique_vecs_idx` below. -/
def windows (g : Nat) (raw : List Nat) : List (List Nat) :=
  (List.range (raw.length - g)).map (fun i => (List.range g).map (fun j => raw.getD (i + j) 0))

/-- The sorted window array (`flatten.sort_unstable()`, main.rs line 93).  The
source's unstable sort and this insertion sort produce the same list, because a
sorted permutation under the total antisymmetric order `LexLe` is unique. -/
def sortedWindows (g : Nat) (raw : List Nat) : List (List Nat) :=
  (windows g raw).insertionSort LexLe

/-- Boundary indices after index 0: the source zips `flatten[..len-1]` with
`flatten[1..]`, enumerates the pairs, and keeps `k + 1` whenever the pair at
`k` differs (main.rs lines 96–110). -/
def boundarySteps (sorted : List (List Nat)) : List Nat :=
  (List.range (sorted.length - 1)).filterMap
    (fun k => if sorted.getD k [] = sorted.getD (k + 1) [] then none else some (k + 1))

/-- `get_unique_vecs_idx` (main.rs lines 87–115).  `none` models a Rust panic:
for `g > raw.len()` the expression `raw.len() - g` underflows `usize`
(main.rs line 89), and for `g = raw.len()` the slice `&flatten[1..]` of the
empty window vector panics (main.rs line 96).  The source has no defined error
path for these inputs. -/
def get_unique_vecs_idx (gram : Nat) (raw : List Nat) : Option (List Nat) :=
  if raw.length < gram then none
  else if (sortedWindows gram raw).length = 0 then none
  else some (0 :: boundarySteps (sortedWindows gram raw))

/-! ### Order lemmas for `lexLe` -/

theorem lexLe_total : ∀ a b : List Nat, lexLe a b = true ∨ lexLe b a = true := by
  intro a
  induction a with
  | nil => intro b; exact Or.inl rfl
  | cons x xs ih =>
    intro b
    cases b with
    | nil => exact Or.inr rfl
    | cons y ys =>
      by_cases hxy : x < y
      · left; simp [lexLe, hxy]
      · by_cases hyx : y < x
        · right; simp [lexLe, hyx, Nat.lt_asymm hyx]
        · have hxy' : ¬ y < x := hyx
          rcases ih ys with h | h
          · left; simp [lexLe, hxy, hyx, h]
          · right; simp [lexLe, hxy, hyx, h]

theorem lexLe_trans : ∀ a b c : List Nat,
    lexLe a b = true → lexLe b c = true → lexLe a c = true := by
  intro a
  induction a with
  | nil => intro b c _ _; rfl
  | cons x xs ih =>
    intro b c hab hbc
    cases b with
    | nil => simp [lexLe] at hab
    | cons y ys =>
      cases c with
      | nil => simp [lexLe] at hbc
      | cons z zs =>
        simp only [lexLe] at hab hbc ⊢
        by_cases hxy : x < y
        · by_cases hyz : y < z
          · simp [Nat.lt_trans hxy hyz]
          · by_cases hzy : z < y
            · simp [hyz, hzy] at hbc
            · have : y = z := Nat.le_antisymm (Nat.le_of_not_lt hzy) (Nat.le_of_not_lt hyz)
              subst this
              simp [hxy]
        · by_cases hyx : y < x
          · simp [hxy, hyx] at hab
          · have hxy' : x = y := Nat.le_antisymm (Nat.le_of_not_lt hyx) (Nat.le_of_not_lt hxy)
            subst hxy'
            simp [hxy, hyx] at hab
            by_cases hyz : x < z
            · simp [hyz]
            · by_cases hzy : z < x
              · simp [hyz, hzy] at hbc
              · simp [hyz, hzy] at hbc ⊢
                exact ih ys zs hab hbc

theorem lexLe_antisymm : ∀ a b : List Nat,
    lexLe a b = true → lexLe b a = true → a = b := by
  intro a
  induction a with
  | nil =>
    intro b _ hba
    cases b with
    | nil => rfl
    | cons y ys => simp [lexLe] at hba
  | cons x xs ih =>
    intro b hab hba
    cases b with
    | nil => simp [lexLe] at hab
    | cons y ys =>
      simp only [lexLe] at hab hba
      by_cases hxy : x < y
      · simp [hxy, Nat.lt_asymm hxy] at hba
      · by_cases hyx : y < x
        · simp [hxy, hyx] at hab
        · have : x = y := Nat.le_antisymm (Nat.le_of_not_lt hyx) (Nat.le_of_not_lt hxy)
          subst this
          simp [hxy] at hab hba
          exact congrArg (x :: ·) (ih ys hab hba)

instance : IsTotal (List Nat) LexLe := ⟨fun a b => lexLe_total a b⟩

instance : IsTrans (List Nat) LexLe := ⟨fun a b c => lexLe_trans a b c⟩

theorem sortedWindows_sorted (g : Nat) (raw : List Nat) :
    List.Sorted LexLe (sortedWindows g raw) :=
  List.sorted_insertionSort LexLe (windows g raw)

theorem sortedWindows_perm (g : Nat) (raw : List Nat) :
    (sortedWindows g raw).Perm (windows g raw) :=
  List.perm_insertionSort LexLe (windows g raw)

/-! ### Window-count facts -/

theorem windows_length (g : Nat) (raw : List Nat) :
    (windows g raw).length = raw.length - g := by
  simp [windows]

theorem windows_getElem? (g : Nat) (raw : List Nat) (i : Nat) (hi : i < raw.length - g) :
    (windows g raw)[i]? = some ((List.range g).map (fun j => raw.getD (i + j) 0)) := by
  simp [windows, List.getElem?_map, List.getElem?_range hi]

theorem sortedWindows_length (g : Nat) (raw : List Nat) :
    (sortedWindows g raw).length = raw.length - g := by
  rw [(sortedWindows_perm g raw).length_eq, windows_length]

/-- Normal form of a successful run of the counter. -/
theorem get_unique_eq {g : Nat} {raw : List Nat} {u : List Nat}
    (h : get_unique_vecs_idx g raw = some u) :
    g < raw.length ∧ u = 0 :: boundarySteps (sortedWindows g raw) := by
  unfold get_unique_vecs_idx at h
  split_ifs at h with h1 h2
  have hne : (sortedWindows g raw).length ≠ 0 := h2
  rw [sortedWindows_length] at hne
  exact ⟨by omega, ((Option.some.injEq _ _).mp h).symm⟩

theorem get_unique_isSome {g : Nat} {raw : List Nat} (h : g < raw.length) :
    get_unique_vecs_idx g raw
      = some (0 :: boundarySteps (sortedWindows g raw)) := by
  unfold get_unique_vecs_idx
  have h1 : ¬ raw.length < g := by omega
  have h2 : ¬ (sortedWindows g raw).length = 0 := by
    rw [sortedWindows_length]; omega
  simp [h1, h2]

/-! ### Counting distinct values by scanning adjacent pairs -/

/-- The number of adjacent unequal pairs of a list. -/
def countAdj : List (List Nat) → Nat
  | [] => 0
  | [_] => 0
  | a :: b :: rest => (if a = b then 0 else 1) + countAdj (b :: rest)

/-- The length of a `filterMap` that keeps exactly the entries violating `p`. -/
theorem length_filterMap_ite {α β : Type} (p : α → Prop) [DecidablePred p] (g : α → β)
    (l : List α) :
    (l.filterMap (fun a => if p a then none else some (g a))).length
      = l.countP (fun a => !(decide (p a))) := by
  induction l with
  | nil => rfl
  | cons a t ih =>
    rw [List.filterMap_cons, List.countP_cons]
    by_cases hp : p a
    · simp [hp, ih]
    · simp [hp, ih]

theorem boundarySteps_length : ∀ l : List (List Nat),
    (boundarySteps l).length = countAdj l := by
  intro l
  induction l with
  | nil => rfl
  | cons a t ih =>
    cases t with
    | nil => rfl
    | cons b rest =>
      unfold boundarySteps
      rw [length_filterMap_ite
        (fun k => (a :: b :: rest).getD k [] = (a :: b :: rest).getD (k + 1) [])
        (fun k => k + 1)]
      have hlen : (a :: b :: rest).length - 1 = rest.length + 1 := by simp
      rw [hlen, List.range_succ_eq_map, List.countP_cons, List.countP_map]
      have hshift :
          ((fun k => !(decide ((a :: b :: rest).getD k [] = (a :: b :: rest).getD (k + 1) [])))
              ∘ Nat.succ)
            = (fun k => !(decide ((b :: rest).getD k [] = (b :: rest).getD (k + 1) []))) := by
        funext k; rfl
      rw [hshift]
      unfold boundarySteps at ih
      rw [length_filterMap_ite
        (fun k => (b :: rest).getD k [] = (b :: rest).getD (k + 1) [])
        (fun k => k + 1)] at ih
      have hlen2 : (b :: rest).length - 1 = rest.length := by simp
      rw [hlen2] at ih
      rw [ih]
      simp only [countAdj]
      by_cases hab : a = b
      · simp [hab]
      · simp [hab]; omega

/-- In a list sorted under a total antisymmetric order, the number of run
starts — one plus the number of adjacent unequal pairs — equals the number of
distinct values. -/
theorem countAdj_sorted_dedup : ∀ l : List (List Nat), l ≠ [] →
    List.Pairwise LexLe l → 1 + countAdj l = l.dedup.length := by
  intro l
  induction l with
  | nil => intro h; exact absurd rfl h
  | cons a t ih =>
    intro _ hsorted
    rcases List.pairwise_cons.mp hsorted with ⟨hall, hpw⟩
    cases t with
    | nil => simp [countAdj]
    | cons b rest =>
      by_cases hab : a = b
      · have hmem : a ∈ b :: rest := by rw [hab]; exact List.mem_cons_self b rest
        rw [List.dedup_cons_of_mem hmem]
        simp only [countAdj]
        rw [if_pos hab, ← ih (by simp) hpw]
        omega
      · have hnot : a ∉ b :: rest := by
          intro hmem
          rcases List.mem_cons.mp hmem with h | h
          · exact hab h
          · rcases List.pairwise_cons.mp hpw with ⟨hball, _⟩
            exact hab (lexLe_antisymm a b (hall b (List.mem_cons_self b rest)) (hball a h))
        rw [List.dedup_cons_of_not_mem hnot]
        simp only [countAdj]
        rw [if_neg hab, List.length_cons, ← ih (by simp) hpw]
        omega

/-- The length of the boundary list of a successful run is the number of
distinct window values. -/
theorem unique_length_eq_card {g : Nat} {raw : List Nat} {u : List Nat}
    (h : get_unique_vecs_idx g raw = some u) :
    u.length = (windows g raw).toFinset.card := by
  obtain ⟨hg, rfl⟩ := get_unique_eq h
  have hne : sortedWindows g raw ≠ [] := by
    intro hnil
    have := sortedWindows_length g raw
    rw [hnil] at this
    simp at this
    omega
  have hsorted : List.Pairwise LexLe (sortedWindows g raw) := sortedWindows_sorted g raw
  have hcount := countAdj_sorted_dedup (sortedWindows g raw) hne hsorted
  have hperm : ((sortedWindows g raw).dedup).Perm ((windows g raw).dedup) :=
    (sortedWindows_perm g raw).dedup
  calc (0 :: boundarySteps (sortedWindows g raw)).length
      = 1 + countAdj (sortedWindows g raw) := by
        rw [List.length_cons, boundarySteps_length]; omega
    _ = (sortedWindows g raw).dedup.length := hcount
    _ = (windows g raw).dedup.length := hperm.length_eq
    _ = (windows g raw).toFinset.card := (List.card_toFinset _).symm

/-- Membership in the boundary-step list characterizes adjacent mismatches. -/
theorem mem_boundarySteps_iff (l : List (List Nat)) (k : Nat) :
    (k + 1) ∈ boundarySteps l ↔ k + 1 < l.length ∧ l.getD k [] ≠ l.getD (k + 1) [] := by
  unfold boundarySteps
  rw [List.mem_filterMap]
  constructor
  · rintro ⟨j, hj, hf⟩
    rw [List.mem_range] at hj
    by_cases hjeq : l.getD j [] = l.getD (j + 1) []
    · rw [if_pos hjeq] at hf
      exact absurd hf (by simp)
    · rw [if_neg hjeq] at hf
      have hjk : j = k := by
        have := (Option.some.injEq _ _).mp hf
        omega
      subst hjk
      exact ⟨by omega, hjeq⟩
  · rintro ⟨hk, hne⟩
    refine ⟨k, ?_, ?_⟩
    · rw [List.mem_range]; omega
    · rw [if_neg hne]

/-- Every recorded boundary step lies in `[1, l.length)`. -/
theorem boundarySteps_mem_bounds {l : List (List Nat)} {x : Nat} (hx : x ∈ boundarySteps l) :
    1 ≤ x ∧ x < l.length := by
  unfold boundarySteps at hx
  rw [List.mem_filterMap] at hx
  obtain ⟨j, hj, hf⟩ := hx
  rw [List.mem_range] at hj
  by_cases hc : l.getD j [] = l.getD (j + 1) []
  · rw [if_pos hc] at hf
    exact absurd hf (by simp)
  · rw [if_neg hc] at hf
    have hxj : x = j + 1 := ((Option.some.injEq _ _).mp hf).symm
    omega

/-! ## Claims about the n-gram counter -/

/-- Claim C1: for a code sequence of length `N` and gram length `g`, the
counter materializes exactly `N - g` windows when `N > g` (offsets
`0 .. N-g-1`, omitting the final possible window) and returns successfully;
the source has no defined error for `g ≥ N` — it panics instead, which the
model records as `none` (evaluated here at `g > N`, `g = N > 0` and `N = 0`). -/
theorem c1_window_count_and_failure :
    (∀ (g : Nat) (raw : List Nat), g < raw.length →
      (windows g raw).length = raw.length - g ∧ (get_unique_vecs_idx g raw).isSome) ∧
    get_unique_vecs_idx 1 [] = none ∧
    get_unique_vecs_idx 1 [5] = none ∧
    get_unique_vecs_idx 3 [7, 7] = none := by
  refine ⟨?_, by decide, by decide, by decide⟩
  intro g raw h
  exact ⟨windows_length g raw, by rw [get_unique_isSome h]; rfl⟩

/-- Witness for `c1_window_count_and_failure`: the universally quantified part
is non-vacuous at `g = 1`, `raw = [4,4,9]`. -/
theorem c1_window_count_and_failure_witness :
    1 < ([4, 4, 9] : List Nat).length ∧
      ((windows 1 [4, 4, 9]).length = 3 - 1 ∧ (get_unique_vecs_idx 1 [4, 4, 9]).isSome) :=
  ⟨by decide, c1_window_count_and_failure.1 1 [4, 4, 9] (by decide)⟩

/-- Claim C6: the counter sorts the materialized windows, records index 0 as
the first boundary, records index `k + 1` as a boundary exactly when
`sorted[k] ≠ sorted[k+1]`, and the length of the boundary list equals the
number of distinct window values. -/
theorem c6_boundary_scan {g : Nat} {raw : List Nat} {u : List Nat}
    (h : get_unique_vecs_idx g raw = some u) :
    u.head? = some 0 ∧
    (∀ k a b, (sortedWindows g raw)[k]? = some a → (sortedWindows g raw)[k + 1]? = some b →
      ((k + 1) ∈ u ↔ a ≠ b)) ∧
    u.length = (windows g raw).toFinset.card := by
  obtain ⟨hg, hu⟩ := get_unique_eq h
  refine ⟨by rw [hu]; rfl, ?_, unique_length_eq_card h⟩
  intro k a b ha hb
  rw [hu]
  have hk1 : k + 1 < (sortedWindows g raw).length := by
    by_contra hge
    rw [List.getElem?_eq_none (by omega)] at hb
    exact absurd hb (by simp)
  have hga : (sortedWindows g raw).getD k [] = a := by
    rw [List.getD_eq_getElem?_getD, ha]; rfl
  have hgb : (sortedWindows g raw).getD (k + 1) [] = b := by
    rw [List.getD_eq_getElem?_getD, hb]; rfl
  rw [List.mem_cons]
  constructor
  · rintro (h0 | hmem)
    · omega
    · rw [mem_boundarySteps_iff] at hmem
      rw [hga, hgb] at hmem
      exact hmem.2
  · intro hab
    right
    rw [mem_boundarySteps_iff, hga, hgb]
    exact ⟨hk1, hab⟩

/-- Witness for `c6_boundary_scan` at `g = 2`, `raw = [8,1,8,1,2]`. -/
theorem c6_boundary_scan_witness :
    get_unique_vecs_idx 2 [8, 1, 8, 1, 2] = some [0, 1] ∧
      ([0, 1] : List Nat).head? = some 0 ∧
      (∀ k a b, (sortedWindows 2 [8, 1, 8, 1, 2])[k]? = some a →
        (sortedWindows 2 [8, 1, 8, 1, 2])[k + 1]? = some b →
        ((k + 1) ∈ ([0, 1] : List Nat) ↔ a ≠ b)) ∧
      ([0, 1] : List Nat).length = (windows 2 [8, 1, 8, 1, 2]).toFinset.card :=
  ⟨by decide, c6_boundary_scan (by decide)⟩

/-- Claim C7: for `[1,2,1,2,3]` with `g = 2` the counter materializes exactly
the three windows `[1,2],[2,1],[1,2]` (offsets 0, 1, 2), sorts them to
`[1,2],[1,2],[2,1]`, places boundaries at indices 0 and 2, and returns a
distinct count of 2. -/
theorem c7_concrete_example :
    windows 2 [1, 2, 1, 2, 3] = [[1, 2], [2, 1], [1, 2]] ∧
    sortedWindows 2 [1, 2, 1, 2, 3] = [[1, 2], [1, 2], [2, 1]] ∧
    get_unique_vecs_idx 2 [1, 2, 1, 2, 3] = some [0, 2] ∧
    (get_unique_vecs_idx 2 [1, 2, 1, 2, 3]).map List.length = some 2 := by
  exact ⟨by decide, by decide, by decide, by decide⟩

/-- Claim C9: whenever `N > g`, the distinct-window count lies between 1 and
`N - g`. -/
theorem c9_distinct_count_bounds (g : Nat) (raw : List Nat) (h : g < raw.length) :
    ∃ u, get_unique_vecs_idx g raw = some u ∧ 1 ≤ u.length ∧ u.length ≤ raw.length - g := by
  refine ⟨_, get_unique_isSome h, by simp, ?_⟩
  have hcard := unique_length_eq_card (get_unique_isSome h)
  rw [hcard]
  calc (windows g raw).toFinset.card ≤ (windows g raw).length := List.toFinset_card_le _
    _ = raw.length - g := windows_length g raw

/-- Witness for `c9_distinct_count_bounds` at `g = 1`, `raw = [9,9,4]`. -/
theorem c9_distinct_count_bounds_witness :
    1 < ([9, 9, 4] : List Nat).length ∧
      ∃ u, get_unique_vecs_idx 1 [9, 9, 4] = some u ∧
        1 ≤ u.length ∧ u.length ≤ ([9, 9, 4] : List Nat).length - 1 :=
  ⟨by decide, c9_distinct_count_bounds 1 [9, 9, 4] (by decide)⟩

/-- Claim C10: on every successful run the returned boundary-index list is
strictly increasing, starts with 0, and every element is below the window
count `N - g`. -/
theorem c10_boundary_indices {g : Nat} {raw : List Nat} {u : List Nat}
    (h : get_unique_vecs_idx g raw = some u) :
    List.Pairwise (· < ·) u ∧ u.head? = some 0 ∧ ∀ x ∈ u, x < raw.length - g := by
  obtain ⟨hg, hu⟩ := get_unique_eq h
  subst hu
  refine ⟨?_, rfl, ?_⟩
  · rw [List.pairwise_cons]
    constructor
    · intro x hx
      exact (boundarySteps_mem_bounds hx).1
    · unfold boundarySteps
      refine List.Pairwise.filterMap _ ?_ (List.pairwise_lt_range _)
      intro j j' hjj' x hx y hy
      by_cases hc : (sortedWindows g raw).getD j [] = (sortedWindows g raw).getD (j + 1) []
      · rw [if_pos hc] at hx
        exact absurd hx (by simp)
      · rw [if_neg hc] at hx
        by_cases hc' : (sortedWindows g raw).getD j' [] = (sortedWindows g raw).getD (j' + 1) []
        · rw [if_pos hc'] at hy
          exact absurd hy (by simp)
        · rw [if_neg hc'] at hy
          rw [Option.mem_def, Option.some.injEq] at hx hy
          omega
  · intro x hx
    rcases List.mem_cons.mp hx with h0 | hmem
    · omega
    · have := (boundarySteps_mem_bounds hmem).2
      rw [sortedWindows_length] at this
      exact this

/-! ## Alphabet vectorizer: `vectorize` (main.rs lines 42–85)

Characters are Unicode scalar values (`Nat`), exactly what the source
inspects through `*ch as u32`.  Tags and codes are `Nat`, with the `u8`
counter wrap modelled by `% 256` (release-build semantics; a debug build
panics at the same input instead — under neither profile does the source
detect the overflow). -/

/-- One corpus word: its characters and its tag (`(Vec<char>, u8)`). -/
abbrev Word := List Nat × Nat

/-- A sentence is a list of words. -/
abbrev Sentence := List Word

/-- A document is a list of sentences. -/
abbrev Document := List Sentence

/-- One corpus file: a list of documents (the source's `Corpus` type alias,
main.rs lines 14–23). -/
abbrev Corpus := List Document

/-- Character eligibility (main.rs line 52): the source returns `(0, 0)` when
`(codepoint < 0x0E01 || codepoint > 0x0E7F) && !char_include_list.contains(ch)`;
a character is vectorized to a real code exactly when its code point lies in
the Thai block `0x0E01–0x0E7F` or it occurs in `char_include_list`. -/
def eligibleChar (incl : List Nat) (c : Nat) : Bool :=
  (0x0E01 ≤ c && c ≤ 0x0E7F) || incl.contains c

/-- The shared allocator state: the `RwLock<HashMap<char, u8>>` (modelled as an
association list whose newest binding wins, which is `HashMap::insert` replace
semantics for every lookup) and the `RwLock<u8>` counter `init`. -/
structure VState where
  map : List (Nat × Nat)
  init : Nat
deriving DecidableEq

/-- `HashMap::get` on the association-list model. -/
def mlookup (c : Nat) : List (Nat × Nat) → Option Nat
  | [] => none
  | (k, v) :: rest => if k = c then some v else mlookup c rest

/-- Vectorize one character (main.rs lines 50–69): an excluded character maps
to `(0, 0)` without touching the shared state; a mapped character returns its
stored code with tag 0 (read lock); an unmapped character inserts the current
counter value as its code and increments the counter with `u8` wrapping (write
locks).  The source returns `*v - 1` after the wrapping increment, which equals
the value just inserted for every counter value below 256. -/
def vectorizeChar (incl : List Nat) (c : Nat) (s : VState) : (Nat × Nat) × VState :=
  if eligibleChar incl c = false then ((0, 0), s)
  else
    match mlookup c s.map with
    | some v => ((v, 0), s)
    | none => ((s.init, 0), ⟨(c, s.init) :: s.map, (s.init + 1) % 256⟩)

/-- Vectorize the characters of one word in order, threading the shared state
(the inner `word.iter().map(...)` of main.rs lines 50–70). -/
def vectorizeChars (incl : List Nat) : List Nat → VState → List (Nat × Nat) × VState
  | [], s => ([], s)
  | c :: cs, s =>
    let r := vectorizeChar incl c s
    let rs := vectorizeChars incl cs r.2
    (r.1 :: rs.1, rs.2)

/-- Overwrite the tag slot of the last emitted pair, if any
(`tagged_chars.last_mut()`, main.rs lines 71–73). -/
def setLastTag {α : Type} (t : Nat) : List (α × Nat) → List (α × Nat)
  | [] => []
  | [p] => [(p.1, t)]
  | p :: q :: rest => p :: setLastTag t (q :: rest)

/-- Vectorize one word: all characters at tag 0, then the word's tag written
into the last pair (main.rs lines 49–74). -/
def vectorizeWord (incl : List Nat) (w : Word) (s : VState) : List (Nat × Nat) × VState :=
  (setLastTag w.2 (vectorizeChars incl w.1 s).1, (vectorizeChars incl w.1 s).2)

/-- Stateful order-preserving flat-map: the sequential semantics of each
`iter().flat_map(...).collect()` level of main.rs lines 47–84. -/
def stFlat {α : Type} (f : α → VState → List (Nat × Nat) × VState) :
    List α → VState → List (Nat × Nat) × VState
  | [], s => ([], s)
  | x :: xs, s =>
    let r := f x s
    let rs := stFlat f xs r.2
    (r.1 ++ rs.1, rs.2)

/-- One sentence (main.rs lines 49–75). -/
def vectorizeSentence (incl : List Nat) (sent : Sentence) : VState → List (Nat × Nat) × VState :=
  stFlat (vectorizeWord incl) sent

/-- One document (main.rs lines 48–78). -/
def vectorizeDocument (incl : List Nat) (doc : Document) : VState → List (Nat × Nat) × VState :=
  stFlat (vectorizeSentence incl) doc

/-- One corpus file (main.rs lines 47–83). -/
def vectorizeFile (incl : List Nat) (file : Corpus) : VState → List (Nat × Nat) × VState :=
  stFlat (vectorizeDocument incl) file

/-- `vectorize` (main.rs lines 42–85) under its sequential reference
semantics: files in input order, a strictly sequential traversal inside each
file.  Rayon's `par_iter().flat_map(...).collect()` places each file's output
at the file's input position, which this concatenation models; the
interleaving of the shared-state accesses of concurrent file tasks is modelled
separately by `step`/`runSched` below. -/
def vectorize (incl : List Nat) (files : List Corpus) : VState → List (Nat × Nat) × VState :=
  stFlat (vectorizeFile incl) files

/-! ### The per-character descriptor stream

Tag reattachment does not interact with the shared allocator state, so a word
flattens into a stream of (character, tag-slot) descriptors: every character
carries tag slot 0 except the last, which carries the word's tag. -/

/-- Descriptor stream of one word; an empty word contributes nothing. -/
def wordSyms (w : Word) : List (Nat × Nat) :=
  setLastTag w.2 (w.1.map (fun c => (c, 0)))

/-- Descriptor stream of one sentence. -/
def sentenceSyms (sent : Sentence) : List (Nat × Nat) := sent.flatMap wordSyms

/-- Descriptor stream of one document. -/
def documentSyms (doc : Document) : List (Nat × Nat) := doc.flatMap sentenceSyms

/-- Descriptor stream of one corpus file. -/
def fileSyms (file : Corpus) : List (Nat × Nat) := file.flatMap documentSyms

/-- Descriptor stream of a whole corpus file list, in input order. -/
def corpusSyms (files : List Corpus) : List (Nat × Nat) := files.flatMap fileSyms

/-- Sequential processing of a descriptor stream: each character is vectorized
in order and emitted with its predetermined tag slot. -/
def runSyms (incl : List Nat) : List (Nat × Nat) → VState → List (Nat × Nat) × VState
  | [], s => ([], s)
  | d :: rest, s =>
    let r := vectorizeChar incl d.1 s
    let rs := runSyms incl rest r.2
    ((r.1.1, d.2) :: rs.1, rs.2)

/-! ### Equivalence of the nested traversal with descriptor-stream processing -/

theorem vectorizeChar_snd (incl : List Nat) (c : Nat) (s : VState) :
    (vectorizeChar incl c s).1.2 = 0 := by
  unfold vectorizeChar
  split
  · rfl
  · split <;> rfl

theorem runSyms_append (incl : List Nat) (d₁ d₂ : List (Nat × Nat)) (s : VState) :
    runSyms incl (d₁ ++ d₂) s
      = ((runSyms incl d₁ s).1 ++ (runSyms incl d₂ (runSyms incl d₁ s).2).1,
         (runSyms incl d₂ (runSyms incl d₁ s).2).2) := by
  induction d₁ generalizing s with
  | nil => simp [runSyms]
  | cons d rest ih => simp [runSyms, ih]

theorem runSyms_map_zero (incl : List Nat) :
    ∀ (cs : List Nat) (s : VState),
      runSyms incl (cs.map (fun c => (c, 0))) s = vectorizeChars incl cs s := by
  intro cs
  induction cs with
  | nil => intro s; rfl
  | cons c rest ih =>
    intro s
    simp only [List.map_cons, runSyms, vectorizeChars, ih]
    have hsnd := vectorizeChar_snd incl c s
    rw [← hsnd, Prod.mk.eta]

theorem runSyms_setLastTag (incl : List Nat) (t : Nat) :
    ∀ (d : List (Nat × Nat)) (s : VState),
      runSyms incl (setLastTag t d) s
        = (setLastTag t (runSyms incl d s).1, (runSyms incl d s).2) := by
  intro d
  induction d with
  | nil => intro s; rfl
  | cons p tail ih =>
    intro s
    cases tail with
    | nil => simp [setLastTag, runSyms]
    | cons q rest =>
      simp only [setLastTag, runSyms, ih]

theorem vectorizeWord_eq_runSyms (incl : List Nat) (w : Word) (s : VState) :
    vectorizeWord incl w s = runSyms incl (wordSyms w) s := by
  unfold vectorizeWord wordSyms
  rw [runSyms_setLastTag, runSyms_map_zero]

theorem stFlat_eq_runSyms {α : Type} (incl : List Nat)
    (f : α → VState → List (Nat × Nat) × VState) (g : α → List (Nat × Nat))
    (hfg : ∀ x s, f x s = runSyms incl (g x) s) :
    ∀ (xs : List α) (s : VState), stFlat f xs s = runSyms incl (xs.flatMap g) s := by
  intro xs
  induction xs with
  | nil => intro s; rfl
  | cons x rest ih =>
    intro s
    rw [List.flatMap_cons, runSyms_append]
    simp [stFlat, hfg, ih]

theorem vectorizeSentence_eq_runSyms (incl : List Nat) (sent : Sentence) (s : VState) :
    vectorizeSentence incl sent s = runSyms incl (sentenceSyms sent) s :=
  stFlat_eq_runSyms incl _ wordSyms (vectorizeWord_eq_runSyms incl) sent s

theorem vectorizeDocument_eq_runSyms (incl : List Nat) (doc : Document) (s : VState) :
    vectorizeDocument incl doc s = runSyms incl (documentSyms doc) s :=
  stFlat_eq_runSyms incl _ sentenceSyms (vectorizeSentence_eq_runSyms incl) doc s

theorem vectorizeFile_eq_runSyms (incl : List Nat) (file : Corpus) (s : VState) :
    vectorizeFile incl file s = runSyms incl (fileSyms file) s :=
  stFlat_eq_runSyms incl _ documentSyms (vectorizeDocument_eq_runSyms incl) file s

/-- The sequential `vectorize` is the sequential processing of the corpus
descriptor stream. -/
theorem vectorize_eq_runSyms (incl : List Nat) (files : List Corpus) (s : VState) :
    vectorize incl files s = runSyms incl (corpusSyms files) s :=
  stFlat_eq_runSyms incl _ fileSyms (vectorizeFile_eq_runSyms incl) files s

/-! ### Structural relation between emitted pairs and their descriptors -/

/-- An emitted symbol pair matches its descriptor: the tag slot is copied
verbatim and an excluded character's code is 0. -/
def SymMatch (incl : List Nat) (p q : Nat × Nat) : Prop :=
  p.2 = q.2 ∧ (eligibleChar incl q.1 = false → p.1 = 0)

theorem runSyms_symMatch (incl : List Nat) :
    ∀ (d : List (Nat × Nat)) (s : VState),
      List.Forall₂ (SymMatch incl) (runSyms incl d s).1 d := by
  intro d
  induction d with
  | nil => intro s; exact List.Forall₂.nil
  | cons q rest ih =>
    intro s
    refine List.Forall₂.cons ⟨rfl, ?_⟩ (ih _)
    intro hql
    simp [vectorizeChar, hql]

theorem symMatch_map_snd {incl : List Nat} :
    ∀ {o d : List (Nat × Nat)}, List.Forall₂ (SymMatch incl) o d →
      o.map Prod.snd = d.map Prod.snd := by
  intro o d h
  induction h with
  | nil => rfl
  | cons hr _ ih => simp [hr.1, ih]

theorem symMatch_getElem? {incl : List Nat} :
    ∀ {o d : List (Nat × Nat)}, List.Forall₂ (SymMatch incl) o d →
      ∀ {j : Nat} {c t : Nat}, d[j]? = some (c, t) → eligibleChar incl c = false →
        o[j]? = some (0, t) := by
  intro o d h
  induction h with
  | nil => intro j c t hj _; simp at hj
  | cons hr hrest ih =>
    intro j c t hj hel
    cases j with
    | zero =>
      simp only [List.getElem?_cons_zero, Option.some.injEq] at hj ⊢
      obtain ⟨hsnd, hfst⟩ := hr
      rw [hj] at hsnd hfst
      exact Prod.ext (hfst hel) hsnd
    | succ j =>
      simp only [List.getElem?_cons_succ] at hj ⊢
      exact ih hj hel

theorem forall₂_append {α β : Type} {R : α → β → Prop} :
    ∀ {a c : List α} {b d : List β}, List.Forall₂ R a b → List.Forall₂ R c d →
      List.Forall₂ R (a ++ c) (b ++ d) := by
  intro a c b d hab hcd
  induction hab with
  | nil => simpa using hcd
  | cons h _ ih => simpa using List.Forall₂.cons h ih

/-! ### The parallel execution model

`vectorize` runs one rayon task per corpus file (`corpuses.par_iter()`,
main.rs line 43).  The tasks share the `RwLock`-guarded map and counter.  The
read-locked lookup (main.rs lines 56–62) is one atomic section and the
write-locked insert-and-increment (main.rs lines 63–69) is another; the source
does not re-check membership after the read lock is released, so between a
task's read miss and its insert any other task may run.  A schedule is the
sequence of task indices in the order their atomic sections execute. -/

/-- One worker task: its remaining descriptor stream, an optional descriptor
that passed the read miss and is waiting to run the write-locked insert, and
the output emitted so far. -/
structure Thread where
  todo : List (Nat × Nat)
  pending : Option (Nat × Nat)
  out : List (Nat × Nat)
deriving DecidableEq

/-- A configuration of the parallel run: the per-file tasks in input order
plus the shared lock-guarded state. -/
structure PConfig where
  threads : List Thread
  vs : VState
deriving DecidableEq

/-- One atomic section executed by worker `i` (no-op for an invalid index or a
finished worker). -/
def step (incl : List Nat) (cfg : PConfig) (i : Nat) : PConfig :=
  match cfg.threads[i]? with
  | none => cfg
  | some th =>
    match th.pending with
    | some d =>
      let th' : Thread := { th with pending := none, out := th.out ++ [(cfg.vs.init, d.2)] }
      { threads := cfg.threads.set i th',
        vs := ⟨(d.1, cfg.vs.init) :: cfg.vs.map, (cfg.vs.init + 1) % 256⟩ }
    | none =>
      match th.todo with
      | [] => cfg
      | d :: rest =>
        if eligibleChar incl d.1 = false then
          let th' : Thread := { th with todo := rest, out := th.out ++ [(0, d.2)] }
          { cfg with threads := cfg.threads.set i th' }
        else
          match mlookup d.1 cfg.vs.map with
          | some v =>
            let th' : Thread := { th with todo := rest, out := th.out ++ [(v, d.2)] }
            { cfg with threads := cfg.threads.set i th' }
          | none =>
            let th' : Thread := { th with todo := rest, pending := some d }
            { cfg with threads := cfg.threads.set i th' }

/-- Run a schedule: the named workers perform their atomic sections in order. -/
def runSched (incl : List Nat) (sched : List Nat) (cfg : PConfig) : PConfig :=
  sched.foldl (step incl) cfg

/-- Initial configuration: one worker per corpus file, shared state `s`. -/
def initConfig (files : List Corpus) (s : VState) : PConfig :=
  ⟨files.map (fun f => ⟨fileSyms f, none, []⟩), s⟩

/-- Every worker has consumed its whole file. -/
def Finished (cfg : PConfig) : Prop :=
  ∀ th ∈ cfg.threads, th.todo = [] ∧ th.pending = none

instance : DecidablePred Finished := fun cfg => by unfold Finished; infer_instance

/-- The merged output: rayon's order-preserving `collect` concatenates the
per-file outputs in file input order, not completion order. -/
def parOutput (cfg : PConfig) : List (Nat × Nat) :=
  (cfg.threads.map Thread.out).flatten

/-- Invariant of one worker against its file's descriptor stream: the emitted
output matches the processed prefix, and the remaining work is the rest. -/
def ThreadOk (incl : List Nat) (d : List (Nat × Nat)) (th : Thread) : Prop :=
  List.Forall₂ (SymMatch incl) th.out (d.take th.out.length) ∧
  match th.pending with
  | none => th.todo = d.drop th.out.length
  | some q => d[th.out.length]? = some q ∧ eligibleChar incl q.1 = true ∧
      th.todo = d.drop (th.out.length + 1)

/-- Invariant of a whole configuration. -/
def ConfigOk (incl : List Nat) (files : List Corpus) (cfg : PConfig) : Prop :=
  cfg.threads.length = files.length ∧
  ∀ (i : Nat) (f : Corpus) (th : Thread), files[i]? = some f → cfg.threads[i]? = some th →
    ThreadOk incl (fileSyms f) th

theorem initConfig_ok (incl : List Nat) (files : List Corpus) (s : VState) :
    ConfigOk incl files (initConfig files s) := by
  constructor
  · simp [initConfig]
  · intro i f th hf hth
    simp only [initConfig, List.getElem?_map, hf, Option.map_some] at hth
    obtain rfl := (Option.some.injEq _ _).mp hth.symm
    exact ⟨List.Forall₂.nil, rfl⟩

theorem forall₂_concat {incl : List Nat} {o d : List (Nat × Nat)} {p q : Nat × Nat}
    (h : List.Forall₂ (SymMatch incl) o d) (hpq : SymMatch incl p q) :
    List.Forall₂ (SymMatch incl) (o ++ [p]) (d ++ [q]) :=
  forall₂_append h (List.Forall₂.cons hpq List.Forall₂.nil)

theorem lt_length_of_getElem?_some {α : Type} {l : List α} {i : Nat} {a : α}
    (h : l[i]? = some a) : i < l.length := by
  by_contra hge
  rw [List.getElem?_eq_none (by omega)] at h
  exact absurd h (by simp)

/-- Each atomic section preserves the configuration invariant. -/
theorem step_ok (incl : List Nat) (files : List Corpus) {cfg : PConfig}
    (hok : ConfigOk incl files cfg) (i : Nat) :
    ConfigOk incl files (step incl cfg i) := by
  obtain ⟨hlen, hinv⟩ := hok
  unfold step
  split
  · exact ⟨hlen, hinv⟩
  rename_i th hth
  have hi : i < cfg.threads.length := lt_length_of_getElem?_some hth
  split
  · -- write-locked insert of a pending descriptor
    rename_i q hpend
    refine ⟨by simpa using hlen, ?_⟩
    intro j f th' hf hth'
    simp only [List.getElem?_set] at hth'
    split_ifs at hth' with hij
    · subst hij
      obtain rfl := (Option.some.injEq _ _).mp hth'.symm
      have hold := hinv i f th hf hth
      obtain ⟨hmatch, hrest⟩ := hold
      rw [hpend] at hrest
      obtain ⟨hq, helig, htodo⟩ := hrest
      constructor
      · simp only [List.length_append, List.length_cons, List.length_nil]
        rw [List.take_succ, hq]
        exact forall₂_concat hmatch ⟨rfl, fun hfalse => absurd hfalse (by simp [helig])⟩
      · simp only [List.length_append, List.length_cons, List.length_nil]
        exact htodo
    · exact hinv j f th' hf hth'
  · -- no pending descriptor
    rename_i hpend
    split
    · exact ⟨hlen, hinv⟩
    rename_i q rest htodo
    have hold : ∀ f, files[i]? = some f →
        List.Forall₂ (SymMatch incl) th.out (List.take th.out.length (fileSyms f)) ∧
          (fileSyms f)[th.out.length]? = some q ∧
          rest = List.drop (th.out.length + 1) (fileSyms f) := by
      intro f hf
      obtain ⟨hmatch, hrest⟩ := hinv i f th hf hth
      rw [hpend] at hrest
      rw [htodo] at hrest
      have hq : (fileSyms f)[th.out.length]? = some q := by
        have h0 := List.getElem?_drop (fileSyms f) th.out.length 0
        rw [← hrest] at h0
        simpa using h0.symm
      have hr : rest = List.drop (th.out.length + 1) (fileSyms f) := by
        have h1 := List.drop_drop 1 th.out.length (fileSyms f)
        rw [← hrest] at h1
        simpa using h1
      exact ⟨hmatch, hq, hr⟩
    split
    · -- excluded character: emits (0, tag slot)
      rename_i hel
      refine ⟨by simpa using hlen, ?_⟩
      intro j f th' hf hth'
      simp only [List.getElem?_set] at hth'
      split_ifs at hth' with hij
      · subst hij
        obtain rfl := (Option.some.injEq _ _).mp hth'.symm
        obtain ⟨hmatch, hq, hr⟩ := hold f hf
        rw [ThreadOk, hpend]
        constructor
        · simp only [List.length_append, List.length_cons, List.length_nil]
          rw [List.take_succ, hq]
          exact forall₂_concat hmatch ⟨rfl, fun _ => rfl⟩
        · simp only [List.length_append, List.length_cons, List.length_nil]
          exact hr
      · exact hinv j f th' hf hth'
    · rename_i hel
      have helig : eligibleChar incl q.1 = true := by
        cases hb : eligibleChar incl q.1
        · exact absurd hb hel
        · rfl
      split
      · -- read hit: emits the stored code
        rename_i v hlook
        refine ⟨by simpa using hlen, ?_⟩
        intro j f th' hf hth'
        simp only [List.getElem?_set] at hth'
        split_ifs at hth' with hij
        · subst hij
          obtain rfl := (Option.some.injEq _ _).mp hth'.symm
          obtain ⟨hmatch, hq, hr⟩ := hold f hf
          rw [ThreadOk, hpend]
          constructor
          · simp only [List.length_append, List.length_cons, List.length_nil]
            rw [List.take_succ, hq]
            exact forall₂_concat hmatch ⟨rfl, fun hfalse => absurd hfalse (by simp [helig])⟩
          · simp only [List.length_append, List.length_cons, List.length_nil]
            exact hr
        · exact hinv j f th' hf hth'
      · -- read miss: the descriptor becomes pending
        rename_i hlook
        refine ⟨by simpa using hlen, ?_⟩
        intro j f th' hf hth'
        simp only [List.getElem?_set] at hth'
        split_ifs at hth' with hij
        · subst hij
          obtain rfl := (Option.some.injEq _ _).mp hth'.symm
          obtain ⟨hmatch, hq, hr⟩ := hold f hf
          exact ⟨hmatch, hq, helig, hr⟩
        · exact hinv j f th' hf hth'

/-- A whole schedule preserves the configuration invariant. -/
theorem runSched_ok (incl : List Nat) (files : List Corpus) (sched : List Nat)
    {cfg : PConfig} (hok : ConfigOk incl files cfg) :
    ConfigOk incl files (runSched incl sched cfg) := by
  induction sched generalizing cfg with
  | nil => exact hok
  | cons i rest ih =>
    exact ih (step_ok incl files hok i)

/-- A finished worker's output matches its whole descriptor stream. -/
theorem finished_forall₂ {incl : List Nat} {d : List (Nat × Nat)} {th : Thread}
    (hok : ThreadOk incl d th) (ht : th.todo = []) (hp : th.pending = none) :
    List.Forall₂ (SymMatch incl) th.out d := by
  obtain ⟨hmatch, hrest⟩ := hok
  rw [hp] at hrest
  have hdrop : ([] : List (Nat × Nat)) = d.drop th.out.length := ht ▸ hrest
  have hlen : d.length ≤ th.out.length := by
    have hc := congrArg List.length hdrop
    rw [List.length_drop] at hc
    simp at hc
    omega
  rw [List.take_of_length_le hlen] at hmatch
  exact hmatch

/-- Merging the finished workers' outputs in file order matches the corpus
descriptor stream. -/
theorem flatten_forall₂ {incl : List Nat} :
    ∀ (fs : List Corpus) (ths : List Thread),
      ths.length = fs.length →
      (∀ (i : Nat) (f : Corpus) (th : Thread), fs[i]? = some f → ths[i]? = some th →
        List.Forall₂ (SymMatch incl) th.out (fileSyms f)) →
      List.Forall₂ (SymMatch incl) ((ths.map Thread.out).flatten) (fs.flatMap fileSyms) := by
  intro fs
  induction fs with
  | nil =>
    intro ths hlen _
    rw [List.length_nil] at hlen
    rw [List.eq_nil_of_length_eq_zero hlen]
    exact List.Forall₂.nil
  | cons f fs ih =>
    intro ths hlen hpt
    cases ths with
    | nil => simp at hlen
    | cons th ths' =>
      rw [List.map_cons, List.flatten_cons, List.flatMap_cons]
      refine forall₂_append (hpt 0 f th (by simp) (by simp)) ?_
      refine ih ths' (by simpa using hlen) ?_
      intro i f' th' hf' hth'
      exact hpt (i + 1) f' th' (by simpa using hf') (by simpa using hth')

/-- Every finished parallel run's output structurally matches the corpus
descriptor stream. -/
theorem parOutput_forall₂ {incl : List Nat} {files : List Corpus} {s : VState}
    {sched : List Nat} (hfin : Finished (runSched incl sched (initConfig files s))) :
    List.Forall₂ (SymMatch incl)
      (parOutput (runSched incl sched (initConfig files s))) (corpusSyms files) := by
  obtain ⟨hlen, hinv⟩ := runSched_ok incl files sched (initConfig_ok incl files s)
  unfold parOutput corpusSyms
  refine flatten_forall₂ files _ hlen ?_
  intro i f th hf hth
  have hmem := List.getElem?_mem hth
  exact finished_forall₂ (hinv i f th hf hth) (hfin th hmem).1 (hfin th hmem).2

/-- The sequential output structurally matches the corpus descriptor stream. -/
theorem vectorize_forall₂ (incl : List Nat) (files : List Corpus) (s : VState) :
    List.Forall₂ (SymMatch incl) (vectorize incl files s).1 (corpusSyms files) := by
  rw [vectorize_eq_runSyms]
  exact runSyms_symMatch incl (corpusSyms files) s

/-! ## Claims about the vectorizer -/

/-- Claim C2 (amended): a parallel run under any complete schedule yields a
Flat Symbol Sequence with the same length as the sequential run, the same tag
at every position, and the pair `(0, tag slot)` at every position whose source
character is excluded; the concrete nonzero codes of eligible characters may
depend on the schedule (see `c2_counterexample`), because the shared counter
assigns codes in shared-state access order, not sequence order. -/
theorem c2_order_preservation_amended (incl : List Nat) (files : List Corpus)
    (s : VState) (sched : List Nat)
    (hfin : Finished (runSched incl sched (initConfig files s))) :
    (parOutput (runSched incl sched (initConfig files s))).map Prod.snd
        = (vectorize incl files s).1.map Prod.snd ∧
    (parOutput (runSched incl sched (initConfig files s))).length
        = (vectorize incl files s).1.length ∧
    ∀ (j c t : Nat), (corpusSyms files)[j]? = some (c, t) →
      eligibleChar incl c = false →
        (parOutput (runSched incl sched (initConfig files s)))[j]? = some (0, t) ∧
        (vectorize incl files s).1[j]? = some (0, t) := by
  have hpar := parOutput_forall₂ hfin
  have hseq := vectorize_forall₂ incl files s
  refine ⟨?_, ?_, ?_⟩
  · rw [symMatch_map_snd hpar, symMatch_map_snd hseq]
  · rw [hpar.length_eq, hseq.length_eq]
  · intro j c t hj hel
    exact ⟨symMatch_getElem? hpar hj hel, symMatch_getElem? hseq hj hel⟩

/-- Witness for `c2_order_preservation_amended`: one file containing the word
`[9, 10]` (9 eligible through the include list, 10 excluded) under the
schedule `[0, 0, 0]`. -/
theorem c2_order_preservation_amended_witness :
    Finished (runSched [9] [0, 0, 0] (initConfig [[[[([9, 10], 4)]]]] ⟨[], 1⟩)) ∧
    ((parOutput (runSched [9] [0, 0, 0] (initConfig [[[[([9, 10], 4)]]]] ⟨[], 1⟩))).map Prod.snd
        = (vectorize [9] [[[[([9, 10], 4)]]]] ⟨[], 1⟩).1.map Prod.snd ∧
      (parOutput (runSched [9] [0, 0, 0] (initConfig [[[[([9, 10], 4)]]]] ⟨[], 1⟩))).length
        = (vectorize [9] [[[[([9, 10], 4)]]]] ⟨[], 1⟩).1.length ∧
      ∀ (j c t : Nat), (corpusSyms [[[[([9, 10], 4)]]]])[j]? = some (c, t) →
        eligibleChar [9] c = false →
          (parOutput (runSched [9] [0, 0, 0] (initConfig [[[[([9, 10], 4)]]]] ⟨[], 1⟩)))[j]?
              = some (0, t) ∧
          (vectorize [9] [[[[([9, 10], 4)]]]] ⟨[], 1⟩).1[j]? = some (0, t)) :=
  ⟨by decide, c2_order_preservation_amended [9] [[[[([9, 10], 4)]]]] ⟨[], 1⟩ [0, 0, 0] (by decide)⟩

/-- Claim C2 as stated is false on the code: two single-character Thai files
(`ก` = 0x0E01 = 3585 and `ข` = 0x0E02 = 3586) under the schedule `[1,1,0,0]`
(the second file's worker wins the counter race) produce the Flat Symbol
Sequence `[(2,1),(1,2)]`, while strictly sequential processing produces
`[(1,1),(2,2)]` — order and tags agree, the codes differ. -/
theorem c2_counterexample :
    Finished (runSched [] [1, 1, 0, 0]
      (initConfig [[[[([3585], 1)]]], [[[([3586], 2)]]]] ⟨[], 1⟩)) ∧
    parOutput (runSched [] [1, 1, 0, 0]
        (initConfig [[[[([3585], 1)]]], [[[([3586], 2)]]]] ⟨[], 1⟩))
      ≠ (vectorize [] [[[[([3585], 1)]]], [[[([3586], 2)]]]] ⟨[], 1⟩).1 :=
  ⟨by decide, by decide⟩

/-! ### Sequential characterization of the alphabet table -/

/-- First-occurrence list of the eligible characters of a stream, extending an
already-collected prefix `acc`. -/
def distinctEligible (incl : List Nat) (acc : List Nat) : List Nat → List Nat
  | [] => acc
  | c :: rest =>
    if eligibleChar incl c = true ∧ c ∉ acc then distinctEligible incl (acc ++ [c]) rest
    else distinctEligible incl acc rest

/-- The table determined by a first-occurrence list: the i-th first-encountered
eligible character carries code `i + 1`. -/
def specLookup (acc : List Nat) (c : Nat) : Option Nat :=
  if c ∈ acc then some (List.indexOf c acc + 1) else none

theorem distinctEligible_length_mono (incl : List Nat) :
    ∀ (l : List Nat) (acc : List Nat), acc.length ≤ (distinctEligible incl acc l).length := by
  intro l
  induction l with
  | nil => intro acc; simp [distinctEligible]
  | cons c rest ih =>
    intro acc
    unfold distinctEligible
    split_ifs with hc
    · calc acc.length ≤ (acc ++ [c]).length := by simp
        _ ≤ _ := ih (acc ++ [c])
    · exact ih acc

theorem indexOf_append_self {c : Nat} :
    ∀ {acc : List Nat}, c ∉ acc → List.indexOf c (acc ++ [c]) = acc.length := by
  intro acc
  induction acc with
  | nil => intro _; simp [List.indexOf_cons]
  | cons a t ih =>
    intro h
    have hac : (a == c) = false := by
      simp only [beq_eq_false_iff_ne]
      intro he
      exact h (by simp [he])
    simp only [List.cons_append, List.indexOf_cons, hac, cond_false, List.length_cons]
    rw [ih (fun hm => h (List.mem_cons_of_mem a hm))]

/-- A single vectorization step never changes an existing mapping: a lookup
hit performs no write, and an insert concerns an absent character. -/
theorem vectorizeChar_preserves_mapping (incl : List Nat) (c' : Nat) (s : VState)
    {c v : Nat} (h : mlookup c s.map = some v) :
    mlookup c ((vectorizeChar incl c' s).2).map = some v := by
  unfold vectorizeChar
  split
  · exact h
  · split
    · exact h
    · rename_i hlook
      show mlookup c ((c', s.init) :: s.map) = some v
      unfold mlookup
      rw [if_neg ?_]
      · exact h
      · intro hcc
        rw [hcc, h] at hlook
        exact absurd hlook (by simp)

/-- Sequential characterization of the allocator: starting from a state whose
table realizes the first-occurrence prefix `acc` (the i-th collected character
carries code `i + 1`) and whose counter is `(1 + acc.length) % 256`, and
provided the total number of distinct eligible characters stays within the
`u8` capacity, the run extends the table along first-occurrence order, keeps
it duplicate-free, and emits only codes in `[1, 255]` for eligible
characters. -/
theorem runSyms_characterization (incl : List Nat) :
    ∀ (d : List (Nat × Nat)) (acc : List Nat) (s : VState),
      acc.Nodup →
      (∀ c : Nat, mlookup c s.map = specLookup acc c) →
      s.init = (1 + acc.length) % 256 →
      (distinctEligible incl acc (d.map Prod.fst)).length ≤ 255 →
      (∀ c : Nat, mlookup c (runSyms incl d s).2.map
          = specLookup (distinctEligible incl acc (d.map Prod.fst)) c) ∧
      (runSyms incl d s).2.init
          = (1 + (distinctEligible incl acc (d.map Prod.fst)).length) % 256 ∧
      (distinctEligible incl acc (d.map Prod.fst)).Nodup ∧
      List.Forall₂ (fun p q : Nat × Nat => p.2 = q.2 ∧
          (eligibleChar incl q.1 = true → 1 ≤ p.1 ∧ p.1 ≤ 255))
        (runSyms incl d s).1 d := by
  intro d
  induction d with
  | nil =>
    intro acc s hnodup hmap hinit hcap
    exact ⟨hmap, hinit, hnodup, List.Forall₂.nil⟩
  | cons q rest ih =>
    intro acc s hnodup hmap hinit hcap
    obtain ⟨c, t⟩ := q
    simp only [List.map_cons] at hcap ⊢
    by_cases hel : eligibleChar incl c = true
    · by_cases hmem : c ∈ acc
      · -- read hit: the stored code is emitted, nothing changes
        have hdE : distinctEligible incl acc (c :: rest.map Prod.fst)
            = distinctEligible incl acc (rest.map Prod.fst) := by
          simp only [distinctEligible]
          rw [if_neg (fun hcon => hcon.2 hmem)]
        have hchar : vectorizeChar incl c s = ((List.indexOf c acc + 1, 0), s) := by
          unfold vectorizeChar
          rw [if_neg (by simp [hel]), hmap c]
          unfold specLookup
          rw [if_pos hmem]
        rw [hdE] at hcap
        obtain ⟨hm, hi, hn, hf⟩ := ih acc s hnodup hmap hinit hcap
        refine ⟨?_, ?_, ?_, ?_⟩
        · intro c'
          simp only [runSyms, hchar, hdE]
          exact hm c'
        · simp only [runSyms, hchar, hdE]
          exact hi
        · rw [hdE]
          exact hn
        · simp only [runSyms, hchar]
          refine List.Forall₂.cons ⟨rfl, fun _ => ⟨by omega, ?_⟩⟩ hf
          have hidx : List.indexOf c acc < acc.length := List.indexOf_lt_length.mpr hmem
          have hmono := distinctEligible_length_mono incl (rest.map Prod.fst) acc
          omega
      · -- read miss: insert with the current counter value
        have hdE : distinctEligible incl acc (c :: rest.map Prod.fst)
            = distinctEligible incl (acc ++ [c]) (rest.map Prod.fst) := by
          simp only [distinctEligible]
          rw [if_pos ⟨hel, hmem⟩]
        have hbound : acc.length ≤ 254 := by
          have h1 := distinctEligible_length_mono incl (rest.map Prod.fst) (acc ++ [c])
          rw [hdE] at hcap
          simp only [List.length_append, List.length_cons, List.length_nil] at h1
          omega
        have hinit' : s.init = 1 + acc.length := by
          rw [hinit, Nat.mod_eq_of_lt (by omega)]
        have hchar : vectorizeChar incl c s
            = ((1 + acc.length, 0),
               ⟨(c, 1 + acc.length) :: s.map, (1 + acc.length + 1) % 256⟩) := by
          unfold vectorizeChar
          rw [if_neg (by simp [hel]), hmap c]
          unfold specLookup
          rw [if_neg hmem, hinit']
        have hmap' : ∀ c' : Nat,
            mlookup c' ((c, 1 + acc.length) :: s.map) = specLookup (acc ++ [c]) c' := by
          intro c'
          by_cases hcc : c = c'
          · subst hcc
            unfold mlookup specLookup
            rw [if_pos rfl, if_pos (by simp), indexOf_append_self hmem]
            congr 1
            omega
          · unfold mlookup
            rw [if_neg hcc, hmap c']
            unfold specLookup
            by_cases hc'acc : c' ∈ acc
            · rw [if_pos hc'acc, if_pos (by simp [hc'acc]),
                List.indexOf_append_of_mem hc'acc]
            · have hnotin : c' ∉ acc ++ [c] := by
                simp only [List.mem_append, List.mem_singleton]
                rintro (h1 | h2)
                · exact hc'acc h1
                · exact hcc h2.symm
              rw [if_neg hc'acc, if_neg hnotin]
        have hnodup' : (acc ++ [c]).Nodup := by
          rw [List.nodup_append]
          refine ⟨hnodup, by simp, ?_⟩
          intro a ha hac
          rw [List.mem_singleton] at hac
          exact hmem (hac ▸ ha)
        have hinit2 : ((1 + acc.length + 1) % 256) = (1 + (acc ++ [c]).length) % 256 := by
          simp only [List.length_append, List.length_cons, List.length_nil]
          omega
        rw [hdE] at hcap
        obtain ⟨hm, hi, hn, hf⟩ := ih (acc ++ [c])
          ⟨(c, 1 + acc.length) :: s.map, (1 + acc.length + 1) % 256⟩
          hnodup' hmap' hinit2 hcap
        refine ⟨?_, ?_, ?_, ?_⟩
        · intro c'
          simp only [runSyms, hchar, hdE]
          exact hm c'
        · simp only [runSyms, hchar, hdE]
          exact hi
        · rw [hdE]
          exact hn
        · simp only [runSyms, hchar]
          exact List.Forall₂.cons ⟨rfl, fun _ => ⟨by omega, by omega⟩⟩ hf
    · -- excluded character: nothing changes
      have helF : eligibleChar incl c = false := by
        cases h : eligibleChar incl c
        · rfl
        · exact absurd h hel
      have hchar : vectorizeChar incl c s = ((0, 0), s) := by
        unfold vectorizeChar
        rw [if_pos helF]
      have hdE : distinctEligible incl acc (c :: rest.map Prod.fst)
          = distinctEligible incl acc (rest.map Prod.fst) := by
        simp only [distinctEligible]
        rw [if_neg (fun hcon => by rw [hcon.1] at helF; exact absurd helF (by simp))]
      rw [hdE] at hcap
      obtain ⟨hm, hi, hn, hf⟩ := ih acc s hnodup hmap hinit hcap
      refine ⟨?_, ?_, ?_, ?_⟩
      · intro c'
        simp only [runSyms, hchar, hdE]
        exact hm c'
      · simp only [runSyms, hchar, hdE]
        exact hi
      · rw [hdE]
        exact hn
      · simp only [runSyms, hchar]
        exact List.Forall₂.cons ⟨rfl, fun htrue => absurd htrue (by simp [helF])⟩ hf

/-! ### Tag-reattachment lemmas -/

theorem setLastTag_length {α : Type} (t : Nat) :
    ∀ l : List (α × Nat), (setLastTag t l).length = l.length := by
  intro l
  induction l with
  | nil => rfl
  | cons p tail ih =>
    cases tail with
    | nil => rfl
    | cons q rest =>
      simp only [setLastTag, List.length_cons]
      rw [ih]
      simp

theorem setLastTag_getElem?_lt {α : Type} (t : Nat) :
    ∀ (l : List (α × Nat)) (i : Nat), i + 1 < l.length → (setLastTag t l)[i]? = l[i]? := by
  intro l
  induction l with
  | nil => intro i h; simp at h
  | cons p tail ih =>
    intro i h
    cases tail with
    | nil => simp at h
    | cons q rest =>
      cases i with
      | zero => simp [setLastTag]
      | succ i =>
        simp only [setLastTag, List.getElem?_cons_succ]
        exact ih i (by simpa using h)

theorem setLastTag_getElem?_last {α : Type} (t : Nat) :
    ∀ (l : List (α × Nat)) (k : Nat), l.length = k + 1 →
      (setLastTag t l)[k]? = (l[k]?).map (fun p => (p.1, t)) := by
  intro l
  induction l with
  | nil => intro k h; simp at h
  | cons p tail ih =>
    intro k h
    cases tail with
    | nil =>
      have hk : k = 0 := by simpa using h
      subst hk
      rfl
    | cons q rest =>
      cases k with
      | zero => simp at h
      | succ k =>
        simp only [setLastTag, List.getElem?_cons_succ]
        exact ih k (by simpa using h)

theorem vectorizeChars_length (incl : List Nat) :
    ∀ (cs : List Nat) (s : VState), (vectorizeChars incl cs s).1.length = cs.length := by
  intro cs
  induction cs with
  | nil => intro s; rfl
  | cons c rest ih =>
    intro s
    simp only [vectorizeChars, List.length_cons]
    rw [ih]

/-- Positional consequence of the characterization's output relation. -/
theorem eligMatch_getElem? {incl : List Nat} :
    ∀ {o d : List (Nat × Nat)},
      List.Forall₂ (fun p q : Nat × Nat => p.2 = q.2 ∧
        (eligibleChar incl q.1 = true → 1 ≤ p.1 ∧ p.1 ≤ 255)) o d →
      ∀ {j c t : Nat}, d[j]? = some (c, t) → eligibleChar incl c = true →
        ∃ p : Nat × Nat, o[j]? = some p ∧ 1 ≤ p.1 ∧ p.2 = t := by
  intro o d h
  induction h with
  | nil => intro j c t hj _; simp at hj
  | cons hr hrest ih =>
    intro j c t hj hel
    cases j with
    | zero =>
      simp only [List.getElem?_cons_zero, Option.some.injEq] at hj ⊢
      obtain ⟨hsnd, hb⟩ := hr
      rw [hj] at hsnd hb
      exact ⟨_, rfl, (hb hel).1, hsnd⟩
    | succ j =>
      simp only [List.getElem?_cons_succ] at hj ⊢
      exact ih hj hel

/-- The characterization instantiated at the initial state of `main`
(main.rs lines 247–248: empty table, counter 1). -/
theorem vectorize_characterization (incl : List Nat) (files : List Corpus)
    (hcap : (distinctEligible incl [] ((corpusSyms files).map Prod.fst)).length ≤ 255) :
    (∀ c : Nat, mlookup c (vectorize incl files ⟨[], 1⟩).2.map
        = specLookup (distinctEligible incl [] ((corpusSyms files).map Prod.fst)) c) ∧
    (vectorize incl files ⟨[], 1⟩).2.init
        = (1 + (distinctEligible incl [] ((corpusSyms files).map Prod.fst)).length) % 256 ∧
    (distinctEligible incl [] ((corpusSyms files).map Prod.fst)).Nodup ∧
    List.Forall₂ (fun p q : Nat × Nat => p.2 = q.2 ∧
        (eligibleChar incl q.1 = true → 1 ≤ p.1 ∧ p.1 ≤ 255))
      (vectorize incl files ⟨[], 1⟩).1 (corpusSyms files) := by
  rw [vectorize_eq_runSyms]
  exact runSyms_characterization incl (corpusSyms files) [] ⟨[], 1⟩ List.nodup_nil
    (fun c => by simp [mlookup, specLookup]) rfl hcap

/-- Claim C4: for every word with `k ≥ 1` characters, the emitted symbol
pairs carry tag 0 at positions `0 .. k-2` and the word's tag at position
`k-1` — including when the last character is excluded and its code is 0 — and
a word with zero characters contributes no pairs at all. -/
theorem c4_tag_reattachment (incl : List Nat) (w : Word) (s : VState) :
    (vectorizeWord incl w s).1.length = w.1.length ∧
    (w.1 = [] → (vectorizeWord incl w s).1 = []) ∧
    (∀ i : Nat, i + 1 < w.1.length →
      ((vectorizeWord incl w s).1[i]?).map Prod.snd = some 0) ∧
    (∀ k : Nat, w.1.length = k + 1 →
      ((vectorizeWord incl w s).1[k]?).map Prod.snd = some w.2) ∧
    (∀ k c : Nat, w.1.length = k + 1 → w.1[k]? = some c → eligibleChar incl c = false →
      (vectorizeWord incl w s).1[k]? = some (0, w.2)) := by
  have hps : (vectorizeWord incl w s).1 = setLastTag w.2 (vectorizeChars incl w.1 s).1 := rfl
  have hlen : (vectorizeChars incl w.1 s).1.length = w.1.length :=
    vectorizeChars_length incl w.1 s
  have hforall : List.Forall₂ (SymMatch incl) (vectorizeChars incl w.1 s).1
      (w.1.map (fun c => (c, 0))) := by
    rw [← runSyms_map_zero]
    exact runSyms_symMatch incl _ s
  refine ⟨?_, ?_, ?_, ?_, ?_⟩
  · rw [hps, setLastTag_length, hlen]
  · intro hnil
    rw [hps, hnil]
    rfl
  · intro i hi
    rw [hps, setLastTag_getElem?_lt _ _ i (by omega)]
    have hsnd := symMatch_map_snd hforall
    have h1 : ((vectorizeChars incl w.1 s).1.map Prod.snd)[i]?
        = ((w.1.map (fun c => (c, 0))).map Prod.snd)[i]? := by rw [hsnd]
    rw [List.getElem?_map, List.getElem?_map, List.getElem?_map] at h1
    rw [h1, List.getElem?_eq_getElem (by simpa using (by omega : i < w.1.length))]
    simp
  · intro k hk
    rw [hps, setLastTag_getElem?_last _ _ k (by omega)]
    have hsome : ∃ p, (vectorizeChars incl w.1 s).1[k]? = some p := by
      refine ⟨_, List.getElem?_eq_getElem ?_⟩
      omega
    obtain ⟨p, hp⟩ := hsome
    rw [hp]
    rfl
  · intro k c hk hc hel
    have hdesc : (w.1.map (fun c => (c, 0)))[k]? = some (c, 0) := by
      rw [List.getElem?_map, hc]
      rfl
    have h0 := symMatch_getElem? hforall hdesc hel
    rw [hps, setLastTag_getElem?_last _ _ k (by omega), h0]
    rfl

/-- Witness for `c4_tag_reattachment` on the word `([3585, 99], 7)` (first
character Thai, last character excluded) from the empty initial state. -/
theorem c4_tag_reattachment_witness :
    (vectorizeWord [] ([3585, 99], 7) ⟨[], 1⟩).1.length = ([3585, 99] : List Nat).length ∧
    ((vectorizeWord [] ([3585, 99], 7) ⟨[], 1⟩).1[0]?).map Prod.snd = some 0 ∧
    ((vectorizeWord [] ([3585, 99], 7) ⟨[], 1⟩).1[1]?).map Prod.snd = some 7 ∧
    (vectorizeWord [] ([3585, 99], 7) ⟨[], 1⟩).1[1]? = some (0, 7) :=
  ⟨(c4_tag_reattachment [] ([3585, 99], 7) ⟨[], 1⟩).1,
   (c4_tag_reattachment [] ([3585, 99], 7) ⟨[], 1⟩).2.2.1 0 (by decide),
   (c4_tag_reattachment [] ([3585, 99], 7) ⟨[], 1⟩).2.2.2.1 1 (by decide),
   (c4_tag_reattachment [] ([3585, 99], 7) ⟨[], 1⟩).2.2.2.2 1 99 (by decide) (by decide)
     (by decide)⟩

/-- Claim C3 (amended): an excluded character is vectorized to `(0, 0)` at the
point of vectorization without touching the shared state, and every occurrence
of an excluded character carries code 0 in the output — sequentially and under
every complete parallel schedule; an eligible character receives a nonzero
code provided at most 255 distinct eligible characters occur in the corpus
(with 256 or more, the 8-bit counter wraps and assigns the reserved code 0 —
see `c3_counterexample`). -/
theorem c3_exclusion_policy :
    (∀ (incl : List Nat) (c : Nat) (s : VState), eligibleChar incl c = false →
      vectorizeChar incl c s = ((0, 0), s)) ∧
    (∀ (incl : List Nat) (files : List Corpus) (j c t : Nat),
      (corpusSyms files)[j]? = some (c, t) → eligibleChar incl c = false →
      ∀ s : VState, ((vectorize incl files s).1[j]?).map Prod.fst = some 0) ∧
    (∀ (incl : List Nat) (files : List Corpus) (s : VState) (sched : List Nat),
      Finished (runSched incl sched (initConfig files s)) →
      ∀ (j c t : Nat), (corpusSyms files)[j]? = some (c, t) → eligibleChar incl c = false →
      ((parOutput (runSched incl sched (initConfig files s)))[j]?).map Prod.fst = some 0) ∧
    (∀ (incl : List Nat) (files : List Corpus),
      (distinctEligible incl [] ((corpusSyms files).map Prod.fst)).length ≤ 255 →
      ∀ (j c t : Nat), (corpusSyms files)[j]? = some (c, t) → eligibleChar incl c = true →
      ∃ p : Nat × Nat, (vectorize incl files ⟨[], 1⟩).1[j]? = some p ∧ 1 ≤ p.1) := by
  refine ⟨?_, ?_, ?_, ?_⟩
  · intro incl c s hel
    unfold vectorizeChar
    rw [if_pos hel]
  · intro incl files j c t hj hel s
    rw [symMatch_getElem? (vectorize_forall₂ incl files s) hj hel]
    rfl
  · intro incl files s sched hfin j c t hj hel
    rw [symMatch_getElem? (parOutput_forall₂ hfin) hj hel]
    rfl
  · intro incl files hcap j c t hj hel
    obtain ⟨p, hp, h1, _⟩ :=
      eligMatch_getElem? (vectorize_characterization incl files hcap).2.2.2 hj hel
    exact ⟨p, hp, h1⟩

/-- Witness for `c3_exclusion_policy` on one file holding the word
`[3585, 77, 3586]` (two Thai characters around the excluded `77`). -/
theorem c3_exclusion_policy_witness :
    eligibleChar [] 77 = false ∧
    vectorizeChar [] 77 ⟨[], 1⟩ = ((0, 0), ⟨[], 1⟩) ∧
    ((vectorize [] [[[[([3585, 77, 3586], 2)]]]] ⟨[], 1⟩).1[1]?).map Prod.fst = some 0 ∧
    (∃ p : Nat × Nat, (vectorize [] [[[[([3585, 77, 3586], 2)]]]] ⟨[], 1⟩).1[0]? = some p ∧
      1 ≤ p.1) :=
  ⟨by decide,
   c3_exclusion_policy.1 [] 77 ⟨[], 1⟩ (by decide),
   c3_exclusion_policy.2.1 [] [[[[([3585, 77, 3586], 2)]]]] 1 77 0 (by decide) (by decide)
     ⟨[], 1⟩,
   c3_exclusion_policy.2.2.2 [] [[[[([3585, 77, 3586], 2)]]]] (by decide) 0 3585 0
     (by decide) (by decide)⟩

/-- Claim C5 (amended): after a sequential run from `main`'s initial state
(empty table, counter 1), provided at most 255 distinct eligible characters
occur, the final table has exactly one entry per distinct eligible character
encountered, each stored code lies in `[1, 255]` (code 0 never appears),
distinct characters carry distinct codes assigned in first-occurrence order
starting at 1, and an existing mapping is never changed by processing further
characters (in particular not by a later lookup). -/
theorem c5_alphabet_table_invariants (incl : List Nat) (files : List Corpus)
    (hcap : (distinctEligible incl [] ((corpusSyms files).map Prod.fst)).length ≤ 255) :
    (∀ c : Nat, (mlookup c (vectorize incl files ⟨[], 1⟩).2.map).isSome
      ↔ c ∈ distinctEligible incl [] ((corpusSyms files).map Prod.fst)) ∧
    (∀ c v : Nat, mlookup c (vectorize incl files ⟨[], 1⟩).2.map = some v →
      1 ≤ v ∧ v ≤ 255) ∧
    (∀ c c' v : Nat, mlookup c (vectorize incl files ⟨[], 1⟩).2.map = some v →
      mlookup c' (vectorize incl files ⟨[], 1⟩).2.map = some v → c = c') ∧
    (∀ c : Nat, c ∈ distinctEligible incl [] ((corpusSyms files).map Prod.fst) →
      mlookup c (vectorize incl files ⟨[], 1⟩).2.map
        = some ((distinctEligible incl [] ((corpusSyms files).map Prod.fst)).indexOf c + 1)) ∧
    (∀ (c v c' : Nat) (s : VState), mlookup c s.map = some v →
      mlookup c ((vectorizeChar incl c' s).2).map = some v) := by
  obtain ⟨hm, _, _, _⟩ := vectorize_characterization incl files hcap
  refine ⟨?_, ?_, ?_, ?_, ?_⟩
  · intro c
    rw [hm c]
    unfold specLookup
    split_ifs with hmem
    · simp [hmem]
    · simp [hmem]
  · intro c v hv
    rw [hm c] at hv
    unfold specLookup at hv
    split_ifs at hv with hmem
    have hidx : List.indexOf c (distinctEligible incl [] ((corpusSyms files).map Prod.fst))
        < (distinctEligible incl [] ((corpusSyms files).map Prod.fst)).length :=
      List.indexOf_lt_length.mpr hmem
    obtain rfl := (Option.some.injEq _ _).mp hv.symm
    omega
  · intro c c' v hv hv'
    rw [hm c] at hv
    rw [hm c'] at hv'
    unfold specLookup at hv hv'
    split_ifs at hv with hmem
    split_ifs at hv' with hmem'
    obtain rfl := (Option.some.injEq _ _).mp hv.symm
    have hin := (Option.some.injEq _ _).mp hv'.symm
    have hidx : List.indexOf c (distinctEligible incl [] ((corpusSyms files).map Prod.fst))
        = List.indexOf c' (distinctEligible incl [] ((corpusSyms files).map Prod.fst)) := by
      omega
    have h1 := List.indexOf_get (List.indexOf_lt_length.mpr hmem)
    have h2 := List.indexOf_get (List.indexOf_lt_length.mpr hmem')
    rw [← h1, ← h2]
    congr 1
    exact Fin.ext hidx
  · intro c hmem
    rw [hm c]
    unfold specLookup
    rw [if_pos hmem]
  · intro c v c' s hv
    exact vectorizeChar_preserves_mapping incl c' s hv

/-- Witness for `c5_alphabet_table_invariants` on one file holding the word
`[3590, 3585, 3590]` (two distinct Thai characters, one repeated). -/
theorem c5_alphabet_table_invariants_witness :
    (distinctEligible [] [] ((corpusSyms [[[[([3590, 3585, 3590], 1)]]]]).map Prod.fst)).length
      ≤ 255 ∧
    ((mlookup 3585 (vectorize [] [[[[([3590, 3585, 3590], 1)]]]] ⟨[], 1⟩).2.map).isSome
      ↔ 3585 ∈ distinctEligible [] []
          ((corpusSyms [[[[([3590, 3585, 3590], 1)]]]]).map Prod.fst)) ∧
    mlookup 3590 (vectorize [] [[[[([3590, 3585, 3590], 1)]]]] ⟨[], 1⟩).2.map
      = some ((distinctEligible [] []
          ((corpusSyms [[[[([3590, 3585, 3590], 1)]]]]).map Prod.fst)).indexOf 3590 + 1) :=
  ⟨by decide,
   (c5_alphabet_table_invariants [] [[[[([3590, 3585, 3590], 1)]]]] (by decide)).1 3585,
   (c5_alphabet_table_invariants [] [[[[([3590, 3585, 3590], 1)]]]] (by decide)).2.2.2.1 3590
     (by decide)⟩

set_option maxRecDepth 100000 in
/-- Claim C3 as stated is false on the code: with the 256 distinct characters
`2000..2255` all in the include list, the 256th distinct eligible character
(code point 2255, output position 255) receives code 0 — the `u8` counter has
wrapped — although the claim promises every eligible character a nonzero
code. -/
theorem c3_counterexample :
    eligibleChar (List.range' 2000 256) 2255 = true ∧
    ((vectorize (List.range' 2000 256) [[[[(List.range' 2000 256, 9)]]]]
        ⟨[], 1⟩).1[255]?).map Prod.fst = some 0 :=
  ⟨by decide, by decide⟩

set_option maxRecDepth 100000 in
/-- Claim C5 as stated is false on the code: with the 256 distinct characters
`3000..3255` all in the include list, the final table stores the reserved code
0 for the 256th distinct character. -/
theorem c5_counterexample :
    mlookup 3255 (vectorize (List.range' 3000 256) [[[[(List.range' 3000 256, 1)]]]]
      ⟨[], 1⟩).2.map = some 0 := by
  decide

set_option maxRecDepth 100000 in
/-- Claim C8 is violated by the code: with the 256 distinct eligible
characters `1000..1255`, the `u8` counter silently wraps (`*v += 1` at
main.rs line 67 under release-build semantics): the final counter value is 1
again after a full cycle, the 256th character is stored and emitted with the
reserved code 0, and no error is detected or reported. -/
theorem c8_counter_wrap :
    (vectorize (List.range' 1000 256) [[[[(List.range' 1000 256, 7)]]]] ⟨[], 1⟩).2.init = 1 ∧
    mlookup 1255 (vectorize (List.range' 1000 256) [[[[(List.range' 1000 256, 7)]]]]
      ⟨[], 1⟩).2.map = some 0 ∧
    (vectorize (List.range' 1000 256) [[[[(List.range' 1000 256, 7)]]]]
      ⟨[], 1⟩).1[255]? = some (0, 7) :=
  ⟨by decide, by decide, by decide⟩

/-- Witness for `c10_boundary_indices` at `g = 2`, `raw = [3,1,3,1,4]`. -/
theorem c10_boundary_indices_witness :
    get_unique_vecs_idx 2 [3, 1, 3, 1, 4] = some [0, 1] ∧
      (List.Pairwise (· < ·) ([0, 1] : List Nat) ∧
        ([0, 1] : List Nat).head? = some 0 ∧
        ∀ x ∈ ([0, 1] : List Nat), x < ([3, 1, 3, 1, 4] : List Nat).length - 2) :=
  ⟨by decide, c10_boundary_indices (by decide)⟩

end BestCorpus
